import Mathlib

/-!
Shallow embedding of the pattern-storage core of the step sequencer
(src/assets/js/pattern.js).  The mutable closure state of `App.Pattern`
becomes an explicit `PatternStore` record; each private function of the
source becomes a pure state-transition function; the `events.trigger`
calls of `tick` become an explicit ordered list of published events.
-/

namespace StepSeq

/-- One entry of the `patterns` array: the channel's stable id and its
ordered list of on/off step flags. -/
structure ChannelPattern where
  channelId : Nat
  steps : List Bool
  deriving Repr, DecidableEq

/-- The closure state of `App.Pattern`: the `patterns` array, the
`channelIndex` lookup object (modelled as an association list with
JS-object assignment semantics), the playback cursor `currentStep`
(a JS number that ranges over negative values, hence `Int`), and
`stepsPerChannel`. -/
structure PatternStore where
  patterns : List ChannelPattern
  channelIndex : List (Nat × Nat)
  currentStep : Int
  stepsPerChannel : Nat
  deriving Repr, DecidableEq

/-- JS-object property assignment `m[k] = v`: if the key is already
present its value is updated in place, otherwise the new binding is
appended in insertion order. -/
def indexSet (m : List (Nat × Nat)) (k v : Nat) : List (Nat × Nat) :=
  if m.any (fun p => p.1 == k) then
    m.map (fun p => if p.1 == k then (k, v) else p)
  else
    m ++ [(k, v)]

/-- JS-object property read `m[k]`, `none` standing for `undefined`. -/
def indexGet (m : List (Nat × Nat)) (k : Nat) : Option Nat :=
  (m.find? (fun p => p.1 == k)).map (fun p => p.2)

/-- The loop body of `rehashChannelIndex`: starting from accumulator `m`
and position `base`, assign `m[channelId] = position` for each remaining
channel record in order. -/
def rehashFrom (m : List (Nat × Nat)) (base : Nat) :
    List ChannelPattern → List (Nat × Nat)
  | [] => m
  | c :: cs => rehashFrom (indexSet m c.channelId base) (base + 1) cs

/-- `rehashChannelIndex` (pattern.js 72-83): empty the index, then fill
it with `channelIndex[patterns[i].channelId] = i` for `i` in order. -/
def rehashChannelIndex (ps : List ChannelPattern) : List (Nat × Nat) :=
  rehashFrom [] 0 ps

/-- One pass of the inner loop of the growing branch of
`correctStepCount`: push one `false` onto every channel's steps. -/
def pushFalseAll (ps : List ChannelPattern) : List ChannelPattern :=
  ps.map (fun c => { c with steps := c.steps ++ [false] })

/-- The outer loop of the growing branch of `correctStepCount`: repeat
`pushFalseAll` once per missing step. -/
def growLoop : Nat → List ChannelPattern → List ChannelPattern
  | 0, ps => ps
  | n + 1, ps => growLoop n (pushFalseAll ps)

/-- `correctStepCount` (pattern.js 92-117): no-op when the count is
already correct; when growing, push `desired - stepsPerChannel` `false`
flags onto every channel; when shrinking, `slice(0, desired)` every
channel; finally update `stepsPerChannel`. -/
def correctStepCount (s : PatternStore) (desiredStepCount : Nat) : PatternStore :=
  if s.stepsPerChannel = desiredStepCount then s
  else if desiredStepCount > s.stepsPerChannel then
    { s with
      patterns := growLoop (desiredStepCount - s.stepsPerChannel) s.patterns
      stepsPerChannel := desiredStepCount }
  else
    { s with
      patterns := s.patterns.map (fun c => { c with steps := c.steps.take desiredStepCount })
      stepsPerChannel := desiredStepCount }

/-- `getChannelById` (pattern.js 128-137): resolve through the index,
with a defensive bound check on the resulting array position; the
source's `false` return becomes `none`. -/
def getChannelById (s : PatternStore) (channelId : Nat) : Option ChannelPattern :=
  match indexGet s.channelIndex channelId with
  | none => none
  | some i => s.patterns[i]?

/-- `addChannel` (pattern.js 146-165): reuse the looked-up record if one
exists (resetting its steps to all-`false` in place), otherwise append a
new all-`false` record and rehash the index. -/
def addChannel (s : PatternStore) (channelId : Nat) : PatternStore :=
  match indexGet s.channelIndex channelId with
  | some i =>
    match s.patterns[i]? with
    | some c =>
      { s with
        patterns := s.patterns.set i { c with steps := List.replicate s.stepsPerChannel false } }
    | none =>
      { s with
        patterns := s.patterns ++ [⟨channelId, List.replicate s.stepsPerChannel false⟩]
        channelIndex := rehashChannelIndex
          (s.patterns ++ [⟨channelId, List.replicate s.stepsPerChannel false⟩]) }
  | none =>
    { s with
      patterns := s.patterns ++ [⟨channelId, List.replicate s.stepsPerChannel false⟩]
      channelIndex := rehashChannelIndex
        (s.patterns ++ [⟨channelId, List.replicate s.stepsPerChannel false⟩]) }

/-- `removeChannel` (pattern.js 173-184): no-op when the id is not in the
index, otherwise `splice` the record out at its indexed position and
rehash. -/
def removeChannel (s : PatternStore) (channelId : Nat) : PatternStore :=
  match indexGet s.channelIndex channelId with
  | none => s
  | some i =>
    { s with
      patterns := s.patterns.eraseIdx i
      channelIndex := rehashChannelIndex (s.patterns.eraseIdx i) }

/-- `stepToggled` (pattern.js 194-205): no-op when the channel does not
resolve or `steps[stepIndex]` is `undefined`; otherwise store the
boolean-cast flag at that step.  `stepIndex` is a JS number, so it is
taken as an `Int` here. -/
def stepToggled (s : PatternStore) (channelId : Nat) (stepIndex : Int) (onFlag : Bool) :
    PatternStore :=
  match indexGet s.channelIndex channelId with
  | none => s
  | some i =>
    match s.patterns[i]? with
    | none => s
    | some c =>
      if 0 ≤ stepIndex ∧ stepIndex.toNat < c.steps.length then
        { s with
          patterns := s.patterns.set i { c with steps := c.steps.set stepIndex.toNat onFlag } }
      else s

/-- `clearPattern` (pattern.js 211-225): give every channel a fresh copy
of the all-`false` pattern of the current width. -/
def clearPattern (s : PatternStore) : PatternStore :=
  { s with
    patterns := s.patterns.map (fun c => { c with steps := List.replicate s.stepsPerChannel false }) }

/-- `resetCurrentStep` (pattern.js 231-233). -/
def resetCurrentStep (s : PatternStore) : PatternStore :=
  { s with currentStep := -1 }

/-- The notifications `tick` publishes through the event dispatcher. -/
inductive Event where
  | stepTick (step : Int)
  | channelTriggered (channelId : Nat)
  deriving Repr, DecidableEq

/-- JS read `steps[i]` used as a condition: `undefined` (out of bounds,
including negative indices) is falsy. -/
def stepAt (steps : List Bool) (i : Int) : Bool :=
  if 0 ≤ i then steps.getD i.toNat false else false

/-- The trigger loop of `tick`: walk `patterns` in order, emitting one
`channelTriggered` event for each channel whose flag at the cursor is
truthy. -/
def tickTriggers (ps : List ChannelPattern) (cs : Int) : List Event :=
  ps.foldl
    (fun acc c =>
      if stepAt c.steps cs then acc ++ [Event.channelTriggered c.channelId] else acc)
    []

/-- `tick` (pattern.js 240-257): pre-increment the cursor, wrap it to 0
when it passed the last valid step, publish `step.tick` with the new
cursor, then run the trigger loop.  Returns the new state and the
published events in order. -/
def tick (s : PatternStore) : PatternStore × List Event :=
  let cs0 := s.currentStep + 1
  let cs := if cs0 > (s.stepsPerChannel : Int) - 1 then 0 else cs0
  ({ s with currentStep := cs }, Event.stepTick cs :: tickTriggers s.patterns cs)

/-- The initial closure state of `App.Pattern` (pattern.js 24-56):
empty `patterns`, empty index, cursor at the `-1` sentinel, 16 steps per
channel. -/
def initStore : PatternStore :=
  { patterns := [], channelIndex := [], currentStep := -1, stepsPerChannel := 16 }

/-- The store's subscribed operations (pattern.js 269-275), one
constructor per consumed event. -/
inductive Op where
  | addChannel (channelId : Nat)
  | removeChannel (channelId : Nat)
  | correctStepCount (desiredStepCount : Nat)
  | stepToggled (channelId : Nat) (stepIndex : Int) (onFlag : Bool)
  | clearPattern
  | resetCurrentStep
  | tick
  deriving Repr, DecidableEq

/-- Dispatch one consumed event to its handler. -/
def applyOp (s : PatternStore) : Op → PatternStore
  | .addChannel cid => addChannel s cid
  | .removeChannel cid => removeChannel s cid
  | .correctStepCount d => correctStepCount s d
  | .stepToggled cid i b => stepToggled s cid i b
  | .clearPattern => clearPattern s
  | .resetCurrentStep => resetCurrentStep s
  | .tick => (tick s).1

/-- Run a sequence of operations from a starting state. -/
def run (s : PatternStore) (ops : List Op) : PatternStore :=
  ops.foldl applyOp s

/-- Step-length invariant: every channel's steps list has exactly
`stepsPerChannel` entries. -/
def stepsInv (s : PatternStore) : Prop :=
  ∀ c ∈ s.patterns, c.steps.length = s.stepsPerChannel

/-- Index invariant: `channelIndex` is exactly the rehash of the current
`patterns` array. -/
def indexInv (s : PatternStore) : Prop :=
  s.channelIndex = rehashChannelIndex s.patterns

/-- Uniqueness invariant: no two positions of `patterns` hold the same
`channelId`. -/
def uniqueIds (s : PatternStore) : Prop :=
  (s.patterns.map (fun c => c.channelId)).Nodup

/-- The conjunction of the structural store invariants. -/
def good (s : PatternStore) : Prop :=
  stepsInv s ∧ indexInv s ∧ uniqueIds s

instance (s : PatternStore) : Decidable (stepsInv s) := by
  unfold stepsInv; infer_instance

instance (s : PatternStore) : Decidable (indexInv s) := by
  unfold indexInv; infer_instance

instance (s : PatternStore) : Decidable (uniqueIds s) := by
  unfold uniqueIds; infer_instance

instance (s : PatternStore) : Decidable (good s) := by
  unfold good; infer_instance

/-! ### Lemmas about JS-object assignment and the index rehash -/

theorem indexSet_cons_of_ne (p : Nat × Nat) (t : List (Nat × Nat)) (k v : Nat)
    (h : ¬ p.1 = k) : indexSet (p :: t) k v = p :: indexSet t k v := by
  by_cases ht : t.any (fun q => q.1 == k) <;>
    simp [indexSet, h, ht]

theorem indexSet_cons_of_eq (p : Nat × Nat) (t : List (Nat × Nat)) (k v : Nat)
    (h : p.1 = k) :
    indexSet (p :: t) k v = (k, v) :: t.map (fun q => if q.1 == k then (k, v) else q) := by
  simp [indexSet, List.any_cons, h]

theorem indexGet_indexSet_self (m : List (Nat × Nat)) (k v : Nat) :
    indexGet (indexSet m k v) k = some v := by
  induction m with
  | nil =>
    have h0 : indexSet [] k v = [(k, v)] := by simp [indexSet]
    rw [h0]
    simp [indexGet]
  | cons p t ih =>
    by_cases hp : p.1 = k
    · rw [indexSet_cons_of_eq p t k v hp]
      simp only [indexGet]
      rw [List.find?_cons_of_pos _ (by simp)]
      rfl
    · rw [indexSet_cons_of_ne p t k v hp]
      simp only [indexGet] at ih ⊢
      rw [List.find?_cons_of_neg _ (by simpa using hp)]
      exact ih

theorem find?_indexSetMap (k v k' : Nat) (h : k' ≠ k) (t : List (Nat × Nat)) :
    (t.map (fun q => if q.1 == k then (k, v) else q)).find? (fun q => q.1 == k') =
      t.find? (fun q => q.1 == k') := by
  induction t with
  | nil => rfl
  | cons q t ih =>
    rw [List.map_cons]
    by_cases hq : q.1 = k
    · rw [if_pos (by simpa using hq)]
      rw [List.find?_cons_of_neg _ (by simp; omega),
        List.find?_cons_of_neg _ (by simp [hq]; omega)]
      exact ih
    · rw [if_neg (by simpa using hq)]
      by_cases hq' : q.1 = k'
      · rw [List.find?_cons_of_pos _ (by simpa using hq'),
          List.find?_cons_of_pos _ (by simpa using hq')]
      · rw [List.find?_cons_of_neg _ (by simpa using hq'),
          List.find?_cons_of_neg _ (by simpa using hq')]
        exact ih

theorem indexGet_indexSet_other (m : List (Nat × Nat)) (k v k' : Nat) (h : k' ≠ k) :
    indexGet (indexSet m k v) k' = indexGet m k' := by
  induction m with
  | nil =>
    have h0 : indexSet [] k v = [(k, v)] := by simp [indexSet]
    rw [h0]
    simp only [indexGet]
    rw [List.find?_cons_of_neg _ (by simp; omega)]
  | cons p t ih =>
    by_cases hp : p.1 = k
    · rw [indexSet_cons_of_eq p t k v hp]
      simp only [indexGet]
      rw [List.find?_cons_of_neg _ (by simp; omega),
        List.find?_cons_of_neg _ (by simp [hp]; omega),
        find?_indexSetMap k v k' h t]
    · rw [indexSet_cons_of_ne p t k v hp]
      by_cases hp' : p.1 = k'
      · simp only [indexGet]
        rw [List.find?_cons_of_pos _ (by simpa using hp'),
          List.find?_cons_of_pos _ (by simpa using hp')]
      · simp only [indexGet] at ih ⊢
        rw [List.find?_cons_of_neg _ (by simpa using hp'),
          List.find?_cons_of_neg _ (by simpa using hp')]
        exact ih

theorem indexGet_rehashFrom_of_absent :
    ∀ (ps : List ChannelPattern) (m : List (Nat × Nat)) (base k : Nat),
      (∀ c ∈ ps, c.channelId ≠ k) →
      indexGet (rehashFrom m base ps) k = indexGet m k := by
  intro ps
  induction ps with
  | nil => intro m base k _; rfl
  | cons c cs ih =>
    intro m base k h
    rw [rehashFrom]
    rw [ih _ _ _ (fun c' hc' => h c' (List.mem_cons_of_mem _ hc'))]
    exact indexGet_indexSet_other m c.channelId base k
      (fun he => h c (List.mem_cons_self _ _) he.symm)

theorem indexGet_rehashFrom_of_uniq :
    ∀ (ps : List ChannelPattern) (m : List (Nat × Nat)) (base j : Nat) (c : ChannelPattern),
      ps[j]? = some c →
      (∀ j' c', ps[j']? = some c' → c'.channelId = c.channelId → j' = j) →
      indexGet (rehashFrom m base ps) c.channelId = some (base + j) := by
  intro ps
  induction ps with
  | nil => intro m base j c hj _; simp at hj
  | cons c0 cs ih =>
    intro m base j c hj huniq
    cases j with
    | zero =>
      have hc : c0 = c := by simpa using hj
      subst hc
      rw [rehashFrom]
      have habs : ∀ c' ∈ cs, c'.channelId ≠ c0.channelId := by
        intro c' hc' he
        obtain ⟨n, hn⟩ := List.mem_iff_getElem?.1 hc'
        have := huniq (n + 1) c' (by simpa using hn) he
        omega
      rw [indexGet_rehashFrom_of_absent cs _ _ _ habs]
      simpa using indexGet_indexSet_self m c0.channelId base
    | succ j1 =>
      rw [rehashFrom]
      have hcs : cs[j1]? = some c := by simpa using hj
      have huniq1 : ∀ j' c', cs[j']? = some c' → c'.channelId = c.channelId → j' = j1 := by
        intro j' c' hj' he
        have := huniq (j' + 1) c' (by simpa using hj') he
        omega
      rw [ih (indexSet m c0.channelId base) (base + 1) j1 c hcs huniq1]
      congr 1
      omega

theorem indexGet_rehash_of_pos (ps : List ChannelPattern)
    (hnd : (ps.map (fun c => c.channelId)).Nodup)
    (j : Nat) (c : ChannelPattern) (hj : ps[j]? = some c) :
    indexGet (rehashChannelIndex ps) c.channelId = some j := by
  have huniq : ∀ j' c', ps[j']? = some c' → c'.channelId = c.channelId → j' = j := by
    intro j' c' hj' he
    have hmj : (ps.map (fun c => c.channelId))[j]? = some c.channelId := by
      simp [List.getElem?_map, hj]
    have hmj' : (ps.map (fun c => c.channelId))[j']? = some c.channelId := by
      simp [List.getElem?_map, hj', he]
    have hlt : j' < (ps.map (fun c => c.channelId)).length := by
      have := (List.getElem?_eq_some_iff.1 hj').1
      simpa using this
    exact List.getElem?_inj hlt hnd (hmj'.trans hmj.symm)
  simpa using indexGet_rehashFrom_of_uniq ps [] 0 j c hj huniq

theorem indexGet_rehash_of_absent (ps : List ChannelPattern) (k : Nat)
    (h : ∀ c ∈ ps, c.channelId ≠ k) :
    indexGet (rehashChannelIndex ps) k = none := by
  rw [rehashChannelIndex, indexGet_rehashFrom_of_absent ps [] 0 k h]
  rfl

theorem rehashFrom_congr :
    ∀ (ps qs : List ChannelPattern) (m : List (Nat × Nat)) (base : Nat),
      ps.map (fun c => c.channelId) = qs.map (fun c => c.channelId) →
      rehashFrom m base ps = rehashFrom m base qs := by
  intro ps
  induction ps with
  | nil =>
    intro qs m base h
    cases qs with
    | nil => rfl
    | cons q qs => simp at h
  | cons c cs ih =>
    intro qs m base h
    cases qs with
    | nil => simp at h
    | cons q qs =>
      simp only [List.map_cons, List.cons.injEq] at h
      rw [rehashFrom, rehashFrom, h.1]
      exact ih qs _ _ h.2

theorem rehashChannelIndex_congr (ps qs : List ChannelPattern)
    (h : ps.map (fun c => c.channelId) = qs.map (fun c => c.channelId)) :
    rehashChannelIndex ps = rehashChannelIndex qs :=
  rehashFrom_congr ps qs [] 0 h

/-! ### Lookup characterisation under the store invariants -/

theorem indexGet_eq_pos (s : PatternStore) (hidx : indexInv s) (hnd : uniqueIds s)
    (j : Nat) (c : ChannelPattern) (hj : s.patterns[j]? = some c) :
    indexGet s.channelIndex c.channelId = some j := by
  rw [hidx]
  exact indexGet_rehash_of_pos s.patterns hnd j c hj

theorem indexGet_eq_none (s : PatternStore) (hidx : indexInv s)
    (k : Nat) (h : ∀ c ∈ s.patterns, c.channelId ≠ k) :
    indexGet s.channelIndex k = none := by
  rw [hidx]
  exact indexGet_rehash_of_absent s.patterns k h

theorem getChannelById_of_mem (s : PatternStore) (hidx : indexInv s) (hnd : uniqueIds s)
    (c : ChannelPattern) (hc : c ∈ s.patterns) :
    getChannelById s c.channelId = some c := by
  obtain ⟨j, hj⟩ := List.mem_iff_getElem?.1 hc
  unfold getChannelById
  rw [indexGet_eq_pos s hidx hnd j c hj]
  exact hj

theorem getChannelById_of_absent (s : PatternStore) (hidx : indexInv s)
    (k : Nat) (h : ∀ c ∈ s.patterns, c.channelId ≠ k) :
    getChannelById s k = none := by
  unfold getChannelById
  rw [indexGet_eq_none s hidx k h]

/-! ### Branch characterisations of the mutating operations -/

theorem addChannel_of_mem (s : PatternStore) (hidx : indexInv s) (hnd : uniqueIds s)
    (j : Nat) (c : ChannelPattern) (hj : s.patterns[j]? = some c) :
    addChannel s c.channelId =
      { s with
        patterns := s.patterns.set j
          { c with steps := List.replicate s.stepsPerChannel false } } := by
  have hget := indexGet_eq_pos s hidx hnd j c hj
  simp only [addChannel, hget, hj]

theorem addChannel_of_absent (s : PatternStore) (hidx : indexInv s) (cid : Nat)
    (habs : ∀ c ∈ s.patterns, c.channelId ≠ cid) :
    addChannel s cid =
      { s with
        patterns := s.patterns ++ [⟨cid, List.replicate s.stepsPerChannel false⟩]
        channelIndex := rehashChannelIndex
          (s.patterns ++ [⟨cid, List.replicate s.stepsPerChannel false⟩]) } := by
  have hget := indexGet_eq_none s hidx cid habs
  simp only [addChannel, hget]

theorem removeChannel_of_absent (s : PatternStore) (hidx : indexInv s) (cid : Nat)
    (habs : ∀ c ∈ s.patterns, c.channelId ≠ cid) :
    removeChannel s cid = s := by
  have hget := indexGet_eq_none s hidx cid habs
  simp only [removeChannel, hget]

theorem removeChannel_of_mem (s : PatternStore) (hidx : indexInv s) (hnd : uniqueIds s)
    (j : Nat) (c : ChannelPattern) (hj : s.patterns[j]? = some c) :
    removeChannel s c.channelId =
      { s with
        patterns := s.patterns.eraseIdx j
        channelIndex := rehashChannelIndex (s.patterns.eraseIdx j) } := by
  have hget := indexGet_eq_pos s hidx hnd j c hj
  simp only [removeChannel, hget]

theorem stepToggled_of_absent (s : PatternStore) (hidx : indexInv s) (cid : Nat)
    (stepIndex : Int) (onFlag : Bool)
    (habs : ∀ c ∈ s.patterns, c.channelId ≠ cid) :
    stepToggled s cid stepIndex onFlag = s := by
  have hget := indexGet_eq_none s hidx cid habs
  simp only [stepToggled, hget]

theorem stepToggled_of_mem_oob (s : PatternStore) (hidx : indexInv s) (hnd : uniqueIds s)
    (j : Nat) (c : ChannelPattern) (hj : s.patterns[j]? = some c)
    (stepIndex : Int) (onFlag : Bool)
    (hoob : ¬ (0 ≤ stepIndex ∧ stepIndex.toNat < c.steps.length)) :
    stepToggled s c.channelId stepIndex onFlag = s := by
  have hget := indexGet_eq_pos s hidx hnd j c hj
  simp only [stepToggled, hget, hj, if_neg hoob]

theorem stepToggled_of_mem_inb (s : PatternStore) (hidx : indexInv s) (hnd : uniqueIds s)
    (j : Nat) (c : ChannelPattern) (hj : s.patterns[j]? = some c)
    (stepIndex : Int) (onFlag : Bool)
    (hinb : 0 ≤ stepIndex ∧ stepIndex.toNat < c.steps.length) :
    stepToggled s c.channelId stepIndex onFlag =
      { s with
        patterns := s.patterns.set j
          { c with steps := c.steps.set stepIndex.toNat onFlag } } := by
  have hget := indexGet_eq_pos s hidx hnd j c hj
  simp only [stepToggled, hget, hj, if_pos hinb]

/-! ### Auxiliary list facts -/

theorem list_set_eq_self {α : Type} (l : List α) :
    ∀ (i : Nat) (a : α), l[i]? = some a → l.set i a = l := by
  induction l with
  | nil => intro i a h; simp at h
  | cons x t ih =>
    intro i a h
    cases i with
    | zero =>
      have hx : x = a := by simpa using h
      rw [List.set_cons_zero, hx]
    | succ n =>
      rw [List.set_cons_succ, ih n a (by simpa using h)]

theorem map_channelId_set (ps : List ChannelPattern) (j : Nat) (c c' : ChannelPattern)
    (hj : ps[j]? = some c) (hcc : c'.channelId = c.channelId) :
    (ps.set j c').map (fun x => x.channelId) = ps.map (fun x => x.channelId) := by
  rw [List.map_set]
  apply list_set_eq_self
  rw [List.getElem?_map, hj]
  simp [hcc]

theorem growLoop_eq (n : Nat) :
    ∀ ps : List ChannelPattern,
      growLoop n ps =
        ps.map (fun c => { c with steps := c.steps ++ List.replicate n false }) := by
  induction n with
  | zero =>
    intro ps
    simp [growLoop]
  | succ n ih =>
    intro ps
    rw [growLoop, ih, pushFalseAll, List.map_map]
    apply List.map_congr_left
    intro c _
    simp [List.replicate_succ]

/-! ### Preservation of the structural invariants -/

theorem good_patterns_map (s : PatternStore) (hg : good s) (f : ChannelPattern → ChannelPattern)
    (hid : ∀ c, (f c).channelId = c.channelId) (d : Nat)
    (hlen : ∀ c ∈ s.patterns, c.steps.length = s.stepsPerChannel → (f c).steps.length = d) :
    good { s with patterns := s.patterns.map f, stepsPerChannel := d } := by
  obtain ⟨hs, hidx, hnd⟩ := hg
  refine ⟨?_, ?_, ?_⟩
  · intro c hc
    obtain ⟨c0, hc0, rfl⟩ := List.mem_map.1 hc
    exact hlen c0 hc0 (hs c0 hc0)
  · show s.channelIndex = rehashChannelIndex (s.patterns.map f)
    rw [hidx]
    apply rehashChannelIndex_congr
    rw [List.map_map]
    apply List.map_congr_left
    intro c _
    exact (hid c).symm
  · show ((s.patterns.map f).map (fun c => c.channelId)).Nodup
    rw [List.map_map]
    have he : s.patterns.map ((fun c => c.channelId) ∘ f) =
        s.patterns.map (fun c => c.channelId) := by
      apply List.map_congr_left
      intro c _
      exact hid c
    rw [he]
    exact hnd

theorem good_patterns_set (s : PatternStore) (hg : good s) (j : Nat) (c c' : ChannelPattern)
    (hj : s.patterns[j]? = some c) (hid : c'.channelId = c.channelId)
    (hlen : c'.steps.length = s.stepsPerChannel) :
    good { s with patterns := s.patterns.set j c' } := by
  obtain ⟨hs, hidx, hnd⟩ := hg
  refine ⟨?_, ?_, ?_⟩
  · intro x hx
    rcases List.mem_or_eq_of_mem_set hx with hmem | h
    · exact hs x hmem
    · rw [h]
      exact hlen
  · show s.channelIndex = rehashChannelIndex (s.patterns.set j c')
    rw [hidx]
    exact (rehashChannelIndex_congr _ _ (map_channelId_set s.patterns j c c' hj hid)).symm
  · show ((s.patterns.set j c').map (fun x => x.channelId)).Nodup
    rw [map_channelId_set s.patterns j c c' hj hid]
    exact hnd

theorem good_correctStepCount (s : PatternStore) (d : Nat) (hg : good s) :
    good (correctStepCount s d) := by
  by_cases h1 : s.stepsPerChannel = d
  · simpa only [correctStepCount, if_pos h1] using hg
  · by_cases h2 : d > s.stepsPerChannel
    · simp only [correctStepCount, if_neg h1, if_pos h2]
      rw [growLoop_eq]
      refine good_patterns_map s hg
        (fun c => { c with steps := c.steps ++ List.replicate (d - s.stepsPerChannel) false })
        (fun c => rfl) d ?_
      intro c _ hl
      simp only [List.length_append, List.length_replicate]
      omega
    · simp only [correctStepCount, if_neg h1, if_neg h2]
      refine good_patterns_map s hg
        (fun c => { c with steps := c.steps.take d })
        (fun c => rfl) d ?_
      intro c _ hl
      simp only [List.length_take]
      omega

theorem good_addChannel (s : PatternStore) (cid : Nat) (hg : good s) :
    good (addChannel s cid) := by
  by_cases hmem : ∃ c ∈ s.patterns, c.channelId = cid
  · obtain ⟨c0, hc0, hcid⟩ := hmem
    obtain ⟨j, hj⟩ := List.mem_iff_getElem?.1 hc0
    subst hcid
    rw [addChannel_of_mem s hg.2.1 hg.2.2 j c0 hj]
    exact good_patterns_set s hg j c0 _ hj rfl (List.length_replicate _ _)
  · push_neg at hmem
    rw [addChannel_of_absent s hg.2.1 cid hmem]
    obtain ⟨hs, hidx, hnd⟩ := hg
    refine ⟨?_, rfl, ?_⟩
    · intro c hc
      rcases List.mem_append.1 hc with h | h
      · exact hs c h
      · have hce : c = ⟨cid, List.replicate s.stepsPerChannel false⟩ := by simpa using h
        rw [hce]
        exact List.length_replicate _ _
    · show ((s.patterns ++ [ChannelPattern.mk cid (List.replicate s.stepsPerChannel false)]).map
        (fun c => c.channelId)).Nodup
      rw [List.map_append, List.nodup_append]
      refine ⟨hnd, by simp, ?_⟩
      intro a ha hb
      obtain ⟨c, hc, hca⟩ := List.mem_map.1 ha
      have hacid : a = cid := by simpa using hb
      exact hmem c hc (hca.trans hacid)

theorem good_removeChannel (s : PatternStore) (cid : Nat) (hg : good s) :
    good (removeChannel s cid) := by
  by_cases hmem : ∃ c ∈ s.patterns, c.channelId = cid
  · obtain ⟨c0, hc0, hcid⟩ := hmem
    obtain ⟨j, hj⟩ := List.mem_iff_getElem?.1 hc0
    subst hcid
    rw [removeChannel_of_mem s hg.2.1 hg.2.2 j c0 hj]
    obtain ⟨hs, hidx, hnd⟩ := hg
    refine ⟨?_, rfl, ?_⟩
    · intro c hc
      exact hs c ((List.eraseIdx_sublist s.patterns j).mem hc)
    · show ((s.patterns.eraseIdx j).map (fun c => c.channelId)).Nodup
      exact List.Nodup.sublist ((List.eraseIdx_sublist s.patterns j).map _) hnd
  · push_neg at hmem
    rw [removeChannel_of_absent s hg.2.1 cid hmem]
    exact hg

theorem good_stepToggled (s : PatternStore) (cid : Nat) (stepIndex : Int) (onFlag : Bool)
    (hg : good s) : good (stepToggled s cid stepIndex onFlag) := by
  by_cases hmem : ∃ c ∈ s.patterns, c.channelId = cid
  · obtain ⟨c0, hc0, hcid⟩ := hmem
    obtain ⟨j, hj⟩ := List.mem_iff_getElem?.1 hc0
    subst hcid
    by_cases hinb : 0 ≤ stepIndex ∧ stepIndex.toNat < c0.steps.length
    · rw [stepToggled_of_mem_inb s hg.2.1 hg.2.2 j c0 hj stepIndex onFlag hinb]
      refine good_patterns_set s hg j c0 _ hj rfl ?_
      rw [List.length_set]
      exact hg.1 c0 hc0
    · rw [stepToggled_of_mem_oob s hg.2.1 hg.2.2 j c0 hj stepIndex onFlag hinb]
      exact hg
  · push_neg at hmem
    rw [stepToggled_of_absent s hg.2.1 cid stepIndex onFlag hmem]
    exact hg

theorem good_clearPattern (s : PatternStore) (hg : good s) : good (clearPattern s) :=
  good_patterns_map s hg
    (fun c => { c with steps := List.replicate s.stepsPerChannel false })
    (fun _ => rfl) s.stepsPerChannel
    (fun _ _ _ => List.length_replicate _ _)

theorem good_resetCurrentStep (s : PatternStore) (hg : good s) :
    good (resetCurrentStep s) := by
  obtain ⟨hs, hidx, hnd⟩ := hg
  exact ⟨hs, hidx, hnd⟩

theorem good_tick (s : PatternStore) (hg : good s) : good (tick s).1 := by
  obtain ⟨hs, hidx, hnd⟩ := hg
  exact ⟨hs, hidx, hnd⟩

theorem good_applyOp (s : PatternStore) (op : Op) (hg : good s) : good (applyOp s op) := by
  cases op with
  | addChannel cid => exact good_addChannel s cid hg
  | removeChannel cid => exact good_removeChannel s cid hg
  | correctStepCount d => exact good_correctStepCount s d hg
  | stepToggled cid i b => exact good_stepToggled s cid i b hg
  | clearPattern => exact good_clearPattern s hg
  | resetCurrentStep => exact good_resetCurrentStep s hg
  | tick => exact good_tick s hg

theorem good_run : ∀ (ops : List Op) (s : PatternStore), good s → good (run s ops) := by
  intro ops
  induction ops with
  | nil => intro s hg; exact hg
  | cons op ops ih =>
    intro s hg
    rw [run, List.foldl_cons]
    exact ih (applyOp s op) (good_applyOp s op hg)

theorem good_initStore : good initStore := by decide

theorem good_run_init (ops : List Op) : good (run initStore ops) :=
  good_run ops initStore good_initStore

/-! ### Fields untouched by each operation -/

theorem addChannel_currentStep (s : PatternStore) (cid : Nat) :
    (addChannel s cid).currentStep = s.currentStep := by
  cases hidx : indexGet s.channelIndex cid with
  | none => simp only [addChannel, hidx]
  | some i =>
    cases hpi : s.patterns[i]? with
    | none => simp only [addChannel, hidx, hpi]
    | some c => simp only [addChannel, hidx, hpi]

theorem addChannel_stepsPerChannel (s : PatternStore) (cid : Nat) :
    (addChannel s cid).stepsPerChannel = s.stepsPerChannel := by
  cases hidx : indexGet s.channelIndex cid with
  | none => simp only [addChannel, hidx]
  | some i =>
    cases hpi : s.patterns[i]? with
    | none => simp only [addChannel, hidx, hpi]
    | some c => simp only [addChannel, hidx, hpi]

theorem removeChannel_currentStep (s : PatternStore) (cid : Nat) :
    (removeChannel s cid).currentStep = s.currentStep := by
  cases hidx : indexGet s.channelIndex cid with
  | none => simp only [removeChannel, hidx]
  | some i => simp only [removeChannel, hidx]

theorem removeChannel_stepsPerChannel (s : PatternStore) (cid : Nat) :
    (removeChannel s cid).stepsPerChannel = s.stepsPerChannel := by
  cases hidx : indexGet s.channelIndex cid with
  | none => simp only [removeChannel, hidx]
  | some i => simp only [removeChannel, hidx]

theorem removeChannel_patterns_sublist (s : PatternStore) (cid : Nat) :
    ((removeChannel s cid).patterns).Sublist s.patterns := by
  cases hidx : indexGet s.channelIndex cid with
  | none =>
    simp only [removeChannel, hidx]
    exact List.Sublist.refl _
  | some i =>
    simp only [removeChannel, hidx]
    exact List.eraseIdx_sublist _ _

theorem correctStepCount_currentStep (s : PatternStore) (d : Nat) :
    (correctStepCount s d).currentStep = s.currentStep := by
  unfold correctStepCount
  split
  · rfl
  · split
    · rfl
    · rfl

theorem stepToggled_currentStep (s : PatternStore) (cid : Nat) (i : Int) (b : Bool) :
    (stepToggled s cid i b).currentStep = s.currentStep := by
  cases hidx : indexGet s.channelIndex cid with
  | none => simp only [stepToggled, hidx]
  | some j =>
    cases hpj : s.patterns[j]? with
    | none => simp only [stepToggled, hidx, hpj]
    | some c =>
      simp only [stepToggled, hidx, hpj]
      split
      · rfl
      · rfl

theorem stepToggled_stepsPerChannel (s : PatternStore) (cid : Nat) (i : Int) (b : Bool) :
    (stepToggled s cid i b).stepsPerChannel = s.stepsPerChannel := by
  cases hidx : indexGet s.channelIndex cid with
  | none => simp only [stepToggled, hidx]
  | some j =>
    cases hpj : s.patterns[j]? with
    | none => simp only [stepToggled, hidx, hpj]
    | some c =>
      simp only [stepToggled, hidx, hpj]
      split
      · rfl
      · rfl

theorem tick_currentStep (s : PatternStore) :
    (tick s).1.currentStep =
      if s.currentStep + 1 > (s.stepsPerChannel : Int) - 1 then 0
      else s.currentStep + 1 := rfl

theorem tick_stepsPerChannel (s : PatternStore) :
    (tick s).1.stepsPerChannel = s.stepsPerChannel := rfl

/-! ### Cursor lower bound along every run -/

theorem cursorLB_applyOp (s : PatternStore) (op : Op) (h : -1 ≤ s.currentStep) :
    -1 ≤ (applyOp s op).currentStep := by
  cases op with
  | addChannel cid =>
    show -1 ≤ (addChannel s cid).currentStep
    rw [addChannel_currentStep]
    exact h
  | removeChannel cid =>
    show -1 ≤ (removeChannel s cid).currentStep
    rw [removeChannel_currentStep]
    exact h
  | correctStepCount d =>
    show -1 ≤ (correctStepCount s d).currentStep
    rw [correctStepCount_currentStep]
    exact h
  | stepToggled cid i b =>
    show -1 ≤ (stepToggled s cid i b).currentStep
    rw [stepToggled_currentStep]
    exact h
  | clearPattern => exact h
  | resetCurrentStep => exact le_refl _
  | tick =>
    show -1 ≤ (tick s).1.currentStep
    rw [tick_currentStep]
    split <;> omega

theorem cursorLB_run : ∀ (ops : List Op) (s : PatternStore),
    -1 ≤ s.currentStep → -1 ≤ (run s ops).currentStep := by
  intro ops
  induction ops with
  | nil => intro s h; exact h
  | cons op ops ih =>
    intro s h
    rw [run, List.foldl_cons]
    exact ih (applyOp s op) (cursorLB_applyOp s op h)

/-- The resting cursor bound of the spec: `-1 <= currentStep < stepsPerChannel`. -/
def cursorBound (s : PatternStore) : Prop :=
  -1 ≤ s.currentStep ∧ s.currentStep < (s.stepsPerChannel : Int)

instance (s : PatternStore) : Decidable (cursorBound s) := by
  unfold cursorBound; infer_instance

theorem cursorBound_of_same (s s' : PatternStore) (hcs : s'.currentStep = s.currentStep)
    (hspc : s'.stepsPerChannel = s.stepsPerChannel) (h : cursorBound s) : cursorBound s' := by
  unfold cursorBound at h ⊢
  rw [hcs, hspc]
  exact h

theorem cursorBound_tick (s : PatternStore) (h1 : -1 ≤ s.currentStep)
    (h2 : 0 < s.stepsPerChannel) : cursorBound (tick s).1 := by
  unfold cursorBound
  rw [tick_currentStep, tick_stepsPerChannel]
  constructor <;> split <;> omega

/-! ### The trigger loop as a filter over patterns -/

theorem tickTriggers_loop (cs : Int) :
    ∀ (ps : List ChannelPattern) (acc : List Event),
      ps.foldl
        (fun acc c =>
          if stepAt c.steps cs then acc ++ [Event.channelTriggered c.channelId] else acc) acc =
      acc ++ (ps.filter (fun c => stepAt c.steps cs)).map
        (fun c => Event.channelTriggered c.channelId) := by
  intro ps
  induction ps with
  | nil => intro acc; simp
  | cons c ps ih =>
    intro acc
    rw [List.foldl_cons]
    by_cases hc : stepAt c.steps cs = true
    · rw [if_pos hc, ih]
      have hf : List.filter (fun c => stepAt c.steps cs) (c :: ps) =
          c :: List.filter (fun c => stepAt c.steps cs) ps := List.filter_cons_of_pos hc
      rw [hf, List.map_cons, List.append_assoc]
      rfl
    · rw [if_neg hc, ih]
      have hf : List.filter (fun c => stepAt c.steps cs) (c :: ps) =
          List.filter (fun c => stepAt c.steps cs) ps := List.filter_cons_of_neg hc
      rw [hf]

theorem tickTriggers_eq (ps : List ChannelPattern) (cs : Int) :
    tickTriggers ps cs =
      (ps.filter (fun c => stepAt c.steps cs)).map
        (fun c => Event.channelTriggered c.channelId) := by
  rw [tickTriggers, tickTriggers_loop cs ps []]
  rfl

theorem tick_events (s : PatternStore) :
    (tick s).2 =
      Event.stepTick (tick s).1.currentStep ::
        (s.patterns.filter (fun c => stepAt c.steps (tick s).1.currentStep)).map
          (fun c => Event.channelTriggered c.channelId) := by
  show Event.stepTick _ :: tickTriggers s.patterns _ = _
  rw [tickTriggers_eq]
  rfl

/-! ### Erasing the unique holder of an id removes it -/

theorem not_mem_map_eraseIdx :
    ∀ (ps : List ChannelPattern) (j : Nat) (c : ChannelPattern),
      (ps.map (fun x => x.channelId)).Nodup → ps[j]? = some c →
      ∀ x ∈ ps.eraseIdx j, x.channelId ≠ c.channelId := by
  intro ps
  induction ps with
  | nil => intro j c _ hj; simp at hj
  | cons p t ih =>
    intro j c hnd hj x hx he
    rw [List.map_cons, List.nodup_cons] at hnd
    obtain ⟨hp, ht⟩ := hnd
    cases j with
    | zero =>
      have hpc : p = c := by simpa using hj
      subst hpc
      rw [List.eraseIdx_cons_zero] at hx
      refine hp ?_
      rw [← he]
      exact List.mem_map_of_mem (fun x => x.channelId) hx
    | succ n =>
      have htn : t[n]? = some c := by simpa using hj
      rw [List.eraseIdx_cons_succ] at hx
      rcases List.mem_cons.1 hx with hxp | hxt
      · subst hxp
        have hcm : c ∈ t := List.mem_iff_getElem?.2 ⟨n, htn⟩
        refine hp ?_
        rw [he]
        exact List.mem_map_of_mem (fun x => x.channelId) hcm
      · exact ih n c ht htn x hxt he

/-! ### Resize branch characterisations -/

theorem correctStepCount_grow (s : PatternStore) (d : Nat) (h : s.stepsPerChannel < d) :
    correctStepCount s d =
      { s with
        patterns := s.patterns.map (fun c =>
          { c with steps := c.steps ++ List.replicate (d - s.stepsPerChannel) false })
        stepsPerChannel := d } := by
  unfold correctStepCount
  rw [if_neg (by omega : ¬ s.stepsPerChannel = d), if_pos (by omega : d > s.stepsPerChannel),
    growLoop_eq]

theorem correctStepCount_shrink (s : PatternStore) (d : Nat) (h : d < s.stepsPerChannel) :
    correctStepCount s d =
      { s with
        patterns := s.patterns.map (fun c => { c with steps := c.steps.take d })
        stepsPerChannel := d } := by
  unfold correctStepCount
  rw [if_neg (by omega : ¬ s.stepsPerChannel = d), if_neg (by omega : ¬ d > s.stepsPerChannel)]

/-! ### Concrete stores used by the witnesses -/

/-- A two-channel store at width 2, with a consistent index. -/
def wA : PatternStore :=
  { patterns := [⟨1, [true, false]⟩, ⟨2, [false, true]⟩]
    channelIndex := [(1, 0), (2, 1)]
    currentStep := -1
    stepsPerChannel := 2 }

/-- A one-channel store at width 16 whose steps are all on. -/
def w16 : PatternStore :=
  { patterns := [⟨1, List.replicate 16 true⟩]
    channelIndex := [(1, 0)]
    currentStep := -1
    stepsPerChannel := 16 }

/-! ### The claims -/

/-- C1: after every sequence of store operations (channel add, channel
remove, step-count change, step toggle, clear, tick, cursor reset)
starting from the initial state, every channel record in `patterns` has a
steps list whose length equals the current `stepsPerChannel`. -/
theorem claim_step_length_invariant (ops : List Op) :
    ∀ c ∈ (run initStore ops).patterns,
      c.steps.length = (run initStore ops).stepsPerChannel :=
  (good_run_init ops).1

theorem claim_step_length_invariant_witness :
    (ChannelPattern.mk 5 (List.replicate 16 false)).steps.length =
      (run initStore [Op.addChannel 5]).stepsPerChannel :=
  claim_step_length_invariant [Op.addChannel 5]
    (ChannelPattern.mk 5 (List.replicate 16 false)) (by decide)

/-- C2: for every prior store state (any cursor value, including the -1
sentinel and out-of-bounds values), `tick` increments the cursor,
resetting it to 0 exactly when the incremented value exceeds
`stepsPerChannel - 1`; it publishes exactly one `step.tick` event
carrying the new cursor first, followed by one `channel.triggered` event
for exactly those channels whose flag at the new cursor is on, in
`patterns` order. -/
theorem claim_tick_algorithm (s : PatternStore) :
    ((tick s).1.currentStep =
      if s.currentStep + 1 > (s.stepsPerChannel : Int) - 1 then 0
      else s.currentStep + 1) ∧
    (tick s).1.patterns = s.patterns ∧
    (tick s).1.stepsPerChannel = s.stepsPerChannel ∧
    (tick s).1.channelIndex = s.channelIndex ∧
    (tick s).2 =
      Event.stepTick (tick s).1.currentStep ::
        (s.patterns.filter (fun c => stepAt c.steps (tick s).1.currentStep)).map
          (fun c => Event.channelTriggered c.channelId) ∧
    (tick s).2.countP
      (fun e => match e with | Event.stepTick _ => true | _ => false) = 1 := by
  refine ⟨rfl, rfl, rfl, rfl, tick_events s, ?_⟩
  have hz : ((s.patterns.filter (fun c => stepAt c.steps (tick s).1.currentStep)).map
      (fun c => Event.channelTriggered c.channelId)).countP
        (fun e => match e with | Event.stepTick _ => true | _ => false) = 0 := by
    rw [List.countP_eq_zero]
    intro a ha
    obtain ⟨c, _, rfl⟩ := List.mem_map.1 ha
    simp
  rw [tick_events s, List.countP_cons, hz]
  rfl

/-- C3 as stated is violated by the code: shrinking the step grid leaves
the cursor untouched even when it now exceeds the new bound, so after
two ticks (cursor 1) and a step-count change to 1, the resting state has
`currentStep = 1 = stepsPerChannel`, outside `[-1, stepsPerChannel)`. -/
theorem claim_cursor_bounds_counterexample :
    (run initStore [Op.tick, Op.tick, Op.correctStepCount 1]).currentStep = 1 ∧
    (run initStore [Op.tick, Op.tick, Op.correctStepCount 1]).stepsPerChannel = 1 ∧
    ¬ cursorBound (run initStore [Op.tick, Op.tick, Op.correctStepCount 1]) := by
  decide

/-- C3 amended: the lower bound `-1 <= currentStep` holds at rest after
every operation sequence; the full bound `-1 <= currentStep <
stepsPerChannel` is preserved by every operation except a step-count
change (which can leave the cursor out of bounds), and the next tick
restores it whenever `stepsPerChannel` is positive. -/
theorem claim_cursor_bounds_amended :
    (∀ ops : List Op, -1 ≤ (run initStore ops).currentStep) ∧
    (∀ (s : PatternStore) (op : Op), cursorBound s → 0 < s.stepsPerChannel →
      (∀ d, op ≠ Op.correctStepCount d) → cursorBound (applyOp s op)) ∧
    (∀ s : PatternStore, -1 ≤ s.currentStep → 0 < s.stepsPerChannel →
      cursorBound (applyOp s Op.tick)) := by
  refine ⟨?_, ?_, ?_⟩
  · intro ops
    exact cursorLB_run ops initStore (by decide)
  · intro s op hb hpos hne
    cases op with
    | addChannel cid =>
      exact cursorBound_of_same s _ (addChannel_currentStep s cid)
        (addChannel_stepsPerChannel s cid) hb
    | removeChannel cid =>
      exact cursorBound_of_same s _ (removeChannel_currentStep s cid)
        (removeChannel_stepsPerChannel s cid) hb
    | correctStepCount d => exact absurd rfl (hne d)
    | stepToggled cid i b =>
      exact cursorBound_of_same s _ (stepToggled_currentStep s cid i b)
        (stepToggled_stepsPerChannel s cid i b) hb
    | clearPattern => exact cursorBound_of_same s _ rfl rfl hb
    | resetCurrentStep =>
      have h1 : (applyOp s Op.resetCurrentStep).currentStep = -1 := rfl
      have h2 : (applyOp s Op.resetCurrentStep).stepsPerChannel = s.stepsPerChannel := rfl
      unfold cursorBound
      rw [h1, h2]
      omega
    | tick => exact cursorBound_tick s hb.1 hpos
  · intro s h1 h2
    exact cursorBound_tick s h1 h2

theorem claim_cursor_bounds_amended_witness :
    cursorBound (applyOp (PatternStore.mk [] [] 3 16) Op.tick) :=
  claim_cursor_bounds_amended.2.2 (PatternStore.mk [] [] 3 16) (by decide) (by decide)

/-- C4: after any sequence of operations from the initial state, no two
positions of `patterns` hold the same channelId, and index lookup of any
registered channel's id returns exactly that channel record. -/
theorem claim_index_consistency (ops : List Op) :
    ((run initStore ops).patterns.map (fun c => c.channelId)).Nodup ∧
    ∀ c ∈ (run initStore ops).patterns,
      getChannelById (run initStore ops) c.channelId = some c :=
  ⟨(good_run_init ops).2.2,
   fun c hc => getChannelById_of_mem (run initStore ops)
     (good_run_init ops).2.1 (good_run_init ops).2.2 c hc⟩

theorem claim_index_consistency_witness :
    getChannelById (run initStore [Op.addChannel 2, Op.addChannel 7]) 7 =
      some (ChannelPattern.mk 7 (List.replicate 16 false)) :=
  (claim_index_consistency [Op.addChannel 2, Op.addChannel 7]).2
    (ChannelPattern.mk 7 (List.replicate 16 false)) (by decide)

/-- C5: growing from width w to d > w preserves every existing flag and
appends d - w flags all `false`; shrinking to d < w truncates to the
first d flags; hence resizing a width-16 store to 8 and back to 16
leaves every channel's entries at indices 8..15 equal to `false`. -/
theorem claim_resize_lossy_roundtrip :
    (∀ (s : PatternStore) (d : Nat), s.stepsPerChannel < d →
      (correctStepCount s d).stepsPerChannel = d ∧
      (correctStepCount s d).patterns =
        s.patterns.map (fun c =>
          { c with steps := c.steps ++ List.replicate (d - s.stepsPerChannel) false })) ∧
    (∀ (s : PatternStore) (d : Nat), d < s.stepsPerChannel →
      (correctStepCount s d).stepsPerChannel = d ∧
      (correctStepCount s d).patterns =
        s.patterns.map (fun c => { c with steps := c.steps.take d })) ∧
    (∀ s : PatternStore, s.stepsPerChannel = 16 → stepsInv s →
      ∀ c ∈ (correctStepCount (correctStepCount s 8) 16).patterns,
        ∀ i : Nat, 8 ≤ i → i < 16 → c.steps[i]? = some false) := by
  refine ⟨?_, ?_, ?_⟩
  · intro s d h
    rw [correctStepCount_grow s d h]
    exact ⟨rfl, rfl⟩
  · intro s d h
    rw [correctStepCount_shrink s d h]
    exact ⟨rfl, rfl⟩
  · intro s h16 hinv c hc i h8 hi16
    have hspc8 : (correctStepCount s 8).stepsPerChannel = 8 := by
      rw [correctStepCount_shrink s 8 (by omega)]
    have hp8 : (correctStepCount s 8).patterns =
        s.patterns.map (fun c => { c with steps := c.steps.take 8 }) := by
      rw [correctStepCount_shrink s 8 (by omega)]
    have hgrow := correctStepCount_grow (correctStepCount s 8) 16 (by rw [hspc8]; omega)
    rw [hgrow] at hc
    rw [hspc8, hp8] at hc
    simp only [List.map_map] at hc
    obtain ⟨c0, hc0, rfl⟩ := List.mem_map.1 hc
    have hlen : ((c0.steps.take 8).length) = 8 := by
      rw [List.length_take, hinv c0 hc0, h16]
      decide
    show ((c0.steps.take 8) ++ List.replicate (16 - 8) false)[i]? = some false
    rw [List.getElem?_append_right (by omega), hlen, List.getElem?_replicate]
    rw [if_pos (by omega)]

theorem claim_resize_lossy_roundtrip_witness :
    (ChannelPattern.mk 1 (List.replicate 8 true ++ List.replicate 8 false)).steps[10]? =
      some false :=
  claim_resize_lossy_roundtrip.2.2 w16 (by decide) (by decide)
    (ChannelPattern.mk 1 (List.replicate 8 true ++ List.replicate 8 false)) (by decide)
    10 (by decide) (by decide)

/-- C6: adding a channelId that already holds a record resets that
record's steps to all-`false` of the current width in place (same
position, all other channels and the index untouched); adding a fresh
channelId appends a new all-`false` record at the end and rebuilds the
index. -/
theorem claim_addChannel_semantics :
    (∀ (s : PatternStore) (j : Nat) (c : ChannelPattern), indexInv s → uniqueIds s →
      s.patterns[j]? = some c →
      addChannel s c.channelId =
        { s with
          patterns := s.patterns.set j
            { c with steps := List.replicate s.stepsPerChannel false } }) ∧
    (∀ (s : PatternStore) (cid : Nat), indexInv s →
      (∀ c ∈ s.patterns, c.channelId ≠ cid) →
      addChannel s cid =
        { s with
          patterns := s.patterns ++
            [ChannelPattern.mk cid (List.replicate s.stepsPerChannel false)]
          channelIndex := rehashChannelIndex
            (s.patterns ++
              [ChannelPattern.mk cid (List.replicate s.stepsPerChannel false)]) }) :=
  ⟨fun s j c hidx hnd hj => addChannel_of_mem s hidx hnd j c hj,
   fun s cid hidx habs => addChannel_of_absent s hidx cid habs⟩

theorem claim_addChannel_semantics_witness :
    addChannel wA 1 =
      { wA with
        patterns := wA.patterns.set 0
          { ChannelPattern.mk 1 [true, false] with
              steps := List.replicate wA.stepsPerChannel false } } :=
  claim_addChannel_semantics.1 wA 0 (ChannelPattern.mk 1 [true, false])
    (by decide) (by decide) (by decide)

/-- C7: removing an unregistered channelId leaves the state unchanged;
removing a registered one deletes exactly that record (keeping the
others' relative order), rebuilds the index from scratch and leaves
`stepsPerChannel` and `currentStep` alone; after removing A and adding a
fresh B, looking up B yields B's new record and looking up A fails. -/
theorem claim_removeChannel_semantics :
    (∀ (s : PatternStore) (cid : Nat), indexInv s →
      (∀ c ∈ s.patterns, c.channelId ≠ cid) → removeChannel s cid = s) ∧
    (∀ (s : PatternStore) (j : Nat) (c : ChannelPattern), indexInv s → uniqueIds s →
      s.patterns[j]? = some c →
      removeChannel s c.channelId =
        { s with
          patterns := s.patterns.eraseIdx j
          channelIndex := rehashChannelIndex (s.patterns.eraseIdx j) }) ∧
    (∀ (s : PatternStore) (a b : Nat), good s → a ≠ b →
      (∀ c ∈ s.patterns, c.channelId ≠ b) →
      getChannelById (addChannel (removeChannel s a) b) b =
        some (ChannelPattern.mk b (List.replicate s.stepsPerChannel false)) ∧
      getChannelById (addChannel (removeChannel s a) b) a = none) := by
  refine ⟨fun s cid hidx habs => removeChannel_of_absent s hidx cid habs,
    fun s j c hidx hnd hj => removeChannel_of_mem s hidx hnd j c hj, ?_⟩
  intro s a b hg hab hbfresh
  have hg1 : good (removeChannel s a) := good_removeChannel s a hg
  have hsub := removeChannel_patterns_sublist s a
  have hbfresh1 : ∀ c ∈ (removeChannel s a).patterns, c.channelId ≠ b :=
    fun c hc => hbfresh c (List.Sublist.mem hc hsub)
  have hafresh1 : ∀ c ∈ (removeChannel s a).patterns, c.channelId ≠ a := by
    by_cases hmem : ∃ c ∈ s.patterns, c.channelId = a
    · obtain ⟨c0, hc0, hcid⟩ := hmem
      obtain ⟨j, hj⟩ := List.mem_iff_getElem?.1 hc0
      subst hcid
      rw [removeChannel_of_mem s hg.2.1 hg.2.2 j c0 hj]
      exact not_mem_map_eraseIdx s.patterns j c0 hg.2.2 hj
    · push_neg at hmem
      rw [removeChannel_of_absent s hg.2.1 a hmem]
      exact hmem
  have hspc1 : (removeChannel s a).stepsPerChannel = s.stepsPerChannel :=
    removeChannel_stepsPerChannel s a
  have hadd := addChannel_of_absent (removeChannel s a) hg1.2.1 b hbfresh1
  have hg2 : good (addChannel (removeChannel s a) b) := good_addChannel _ b hg1
  constructor
  · have hmem2 : ChannelPattern.mk b (List.replicate s.stepsPerChannel false) ∈
        (addChannel (removeChannel s a) b).patterns := by
      rw [hadd]
      show _ ∈ (removeChannel s a).patterns ++
        [ChannelPattern.mk b (List.replicate (removeChannel s a).stepsPerChannel false)]
      rw [hspc1]
      exact List.mem_append.2 (Or.inr (List.mem_cons_self _ _))
    exact getChannelById_of_mem _ hg2.2.1 hg2.2.2 _ hmem2
  · apply getChannelById_of_absent _ hg2.2.1
    intro c hc
    rw [hadd] at hc
    rcases List.mem_append.1 hc with h | h
    · exact hafresh1 c h
    · have hcb : c = ChannelPattern.mk b
          (List.replicate (removeChannel s a).stepsPerChannel false) := by
        simpa using h
      rw [hcb]
      simpa using hab.symm

theorem claim_removeChannel_semantics_witness :
    removeChannel wA 99 = wA :=
  claim_removeChannel_semantics.1 wA 99 (by decide) (by decide)

/-- C8: toggling an unregistered channelId, or a stepIndex outside
`[0, steps.length)`, leaves the whole state unchanged (the steps list
never grows); otherwise only that channel's flag at that index is set to
the given boolean. -/
theorem claim_setStep_semantics :
    (∀ (s : PatternStore) (cid : Nat) (stepIndex : Int) (onFlag : Bool), indexInv s →
      (∀ c ∈ s.patterns, c.channelId ≠ cid) →
      stepToggled s cid stepIndex onFlag = s) ∧
    (∀ (s : PatternStore) (j : Nat) (c : ChannelPattern) (stepIndex : Int) (onFlag : Bool),
      indexInv s → uniqueIds s → s.patterns[j]? = some c →
      stepIndex < 0 ∨ (c.steps.length : Int) ≤ stepIndex →
      stepToggled s c.channelId stepIndex onFlag = s) ∧
    (∀ (s : PatternStore) (j : Nat) (c : ChannelPattern) (stepIndex : Int) (onFlag : Bool),
      indexInv s → uniqueIds s → s.patterns[j]? = some c →
      0 ≤ stepIndex → stepIndex < (c.steps.length : Int) →
      stepToggled s c.channelId stepIndex onFlag =
        { s with
          patterns := s.patterns.set j
            { c with steps := c.steps.set stepIndex.toNat onFlag } }) := by
  refine ⟨fun s cid si b hidx habs => stepToggled_of_absent s hidx cid si b habs, ?_, ?_⟩
  · intro s j c si b hidx hnd hj hoob
    exact stepToggled_of_mem_oob s hidx hnd j c hj si b (by omega)
  · intro s j c si b hidx hnd hj h0 hlt
    exact stepToggled_of_mem_inb s hidx hnd j c hj si b ⟨h0, by omega⟩

theorem claim_setStep_semantics_witness :
    stepToggled wA 1 1 true =
      { wA with
        patterns := wA.patterns.set 0
          { ChannelPattern.mk 1 [true, false] with
              steps := [true, false].set (Int.toNat 1) true } } :=
  claim_setStep_semantics.2.2 wA 0 (ChannelPattern.mk 1 [true, false]) 1 true
    (by decide) (by decide) (by decide) (by decide) (by decide)

/-- C9: clearing replaces every channel's steps by a fresh all-`false`
list of the current width, leaves the membership of `patterns`, the
index, the cursor and the width untouched, and is idempotent. -/
theorem claim_clearAll_semantics (s : PatternStore) :
    clearPattern s =
      { s with
        patterns := s.patterns.map
          (fun c => { c with steps := List.replicate s.stepsPerChannel false }) } ∧
    (clearPattern s).channelIndex = s.channelIndex ∧
    (clearPattern s).currentStep = s.currentStep ∧
    (clearPattern s).stepsPerChannel = s.stepsPerChannel ∧
    clearPattern (clearPattern s) = clearPattern s := by
  refine ⟨rfl, rfl, rfl, rfl, ?_⟩
  have h : clearPattern (clearPattern s) =
      { s with
        patterns := (s.patterns.map
          (fun c => { c with steps := List.replicate s.stepsPerChannel false })).map
          (fun c => { c with steps := List.replicate s.stepsPerChannel false }) } := rfl
  rw [h, List.map_map]
  rfl

/-- C10: a freshly constructed pattern store starts with no channels, an
empty index, the cursor at the -1 sentinel and a default grid width of
16. -/
theorem claim_initial_state :
    initStore.patterns = [] ∧ initStore.channelIndex = [] ∧
    initStore.currentStep = -1 ∧ initStore.stepsPerChannel = 16 :=
  ⟨rfl, rfl, rfl, rfl⟩

end StepSeq
